import Mathlib

/-!
Verification of the ICARTT reader (`icartt_reader.py`).

The file content is modelled as a list of characters (`Str`); lines are
recovered with Python `readline` semantics.  Python strings become `Str`,
Python `int` becomes `Int`, `None`-able values become `Option`, and the
fallible constructor `ICARTTReader.__init__` / `_read_info` becomes a
function returning `Option ICARTTInfo` (`none` = the `ValueError` path).
-/

set_option autoImplicit false

namespace Icartt

/-- A Python string, modelled as its list of characters. -/
abbrev Str := List Char

/-- Python `str.isspace` on one character (ASCII whitespace, as used by
`str.strip()` / `str.split()`). -/
def isPySpace (c : Char) : Bool :=
  c = ' ' || c = '\t' || c = '\n' || c = '\r' || c = '\x0b' || c = '\x0c'

/-- Python `s.strip()`: remove leading and trailing whitespace. -/
def pyStrip (s : Str) : Str :=
  ((s.dropWhile isPySpace).reverse.dropWhile isPySpace).reverse

/-- Python `s.rstrip("\n")`: remove trailing newline characters only. -/
def pyRstripNl (s : Str) : Str :=
  (s.reverse.dropWhile (fun c => c = '\n')).reverse

/-- Python `s.split(sep)` for a one-character separator: always returns at
least one (possibly empty) chunk. -/
def splitOnChar (c : Char) : Str → List Str
  | [] => [[]]
  | x :: xs =>
    match splitOnChar c xs with
    | [] => [[x]]
    | y :: ys => if x = c then [] :: y :: ys else (x :: y) :: ys

/-- Python `sep.join(parts)` for a one-character separator. -/
def joinWithChar (c : Char) : List Str → Str
  | [] => []
  | [x] => x
  | x :: y :: ys => x ++ c :: joinWithChar c (y :: ys)

/-- Helper for `splitWs`: accumulates the current word (reversed). -/
def splitWsAux : Str → Str → List Str
  | acc, [] => if acc.isEmpty then [] else [acc.reverse]
  | acc, c :: cs =>
    if isPySpace c then
      if acc.isEmpty then splitWsAux [] cs else acc.reverse :: splitWsAux [] cs
    else
      splitWsAux (c :: acc) cs

/-- Python `s.split()` with no argument: split on whitespace runs, never
producing empty tokens. -/
def splitWs (s : Str) : List Str := splitWsAux [] s

/-- Numeric value of an ASCII digit character. -/
def digitVal (c : Char) : Nat := c.toNat - 48

/-- Continuation of a Python integer-literal digit sequence: digits with
single underscores allowed only between digits. -/
def udigitsRest : Str → Bool
  | [] => true
  | c :: cs =>
    if c.isDigit then udigitsRest cs
    else if c = '_' then
      match cs with
      | [] => false
      | d :: ds => d.isDigit && udigitsRest ds
    else false

/-- A full Python integer-literal digit sequence (nonempty, underscores
only between digits), as accepted by `int(...)` after the optional sign. -/
def udigitsOk : Str → Bool
  | [] => false
  | c :: cs => c.isDigit && udigitsRest cs

/-- Value of a digit sequence, skipping underscores. -/
def digitsToNat (s : Str) : Nat :=
  s.foldl (fun a c => if c = '_' then a else 10 * a + digitVal c) 0

/-- Python `int(s)` on a text argument: optional surrounding whitespace,
optional sign, then a digit sequence (ASCII digits modelled).  `none`
models the `ValueError` raise. -/
def pyInt? (s : Str) : Option Int :=
  match pyStrip s with
  | '+' :: rest => if udigitsOk rest then some (Int.ofNat (digitsToNat rest)) else none
  | '-' :: rest => if udigitsOk rest then some (-(Int.ofNat (digitsToNat rest))) else none
  | t => if udigitsOk t then some (Int.ofNat (digitsToNat t)) else none

/-- Decimal digits of a natural number, most significant first, with
structural fuel (`fuel` at least the digit count always suffices). -/
def natReprAux : Nat → Nat → Str
  | 0, _ => []
  | fuel + 1, n =>
    if n < 10 then [Char.ofNat (48 + n)]
    else natReprAux fuel (n / 10) ++ [Char.ofNat (48 + n % 10)]

/-- Decimal digits of a natural number, most significant first. -/
def natRepr (n : Nat) : Str := natReprAux (n + 1) n

/-- Python `str(i)` for an integer. -/
def intRepr (i : Int) : Str :=
  if i < 0 then '-' :: natRepr (-i).toNat else natRepr i.toNat

/-- Reassemble raw lines from newline-split chunks: every chunk but the
last gets its newline back; the last chunk is a line only if nonempty. -/
def fileLinesAux (cs : List Str) : List Str :=
  match cs.getLast? with
  | some [] => cs.dropLast.map (fun l => l ++ ['\n'])
  | some l => cs.dropLast.map (fun l => l ++ ['\n']) ++ [l]
  | none => cs.dropLast.map (fun l => l ++ ['\n'])

/-- The sequence of raw lines `f.readline()` yields for a file whose whole
content is `s`: every line keeps its trailing newline except a final
unterminated line; a trailing newline does not create an extra line. -/
def fileLines (s : Str) : List Str :=
  fileLinesAux (splitOnChar '\n' s)

/-- Rendering of `str(pathlib.Path(p))` (external library): an empty input
renders as `"."`, otherwise the path text itself.  Of its normalization
behaviour only non-emptiness is relevant to the claims. -/
def pyPathStr (p : Str) : Str := if p.isEmpty then ['.'] else p

/-- The `ICARTTInfo` dataclass: cached result of `_read_info`. -/
structure ICARTTInfo where
  path : Str
  header_length : Int
  ffi : Str
deriving DecidableEq

/-- The `VariableDef` dataclass.  `missing` is typed `Optional[float]` in
the source but the per-variable hook always returns the empty map, so the
field is never populated; it is carried as an `Option Int` placeholder. -/
structure VariableDef where
  name : Str
  unit : Option Str
  description : Option Str
  missing : Option Int
deriving DecidableEq

/-- The trimmed comma-tokens of the (stripped) first line of the file, as
computed by `_read_info`: `[p.strip() for p in line1.split(",")]`. -/
def firstLineTokens (s : Str) : List Str :=
  (splitOnChar ',' (pyStrip ((fileLines s).headD []))).map pyStrip

/-- `ICARTTReader._read_info` (and thus construction): `none` models the
`ValueError` raised on fewer than two tokens or an unparsable first
token. -/
def read_info (path s : Str) : Option ICARTTInfo :=
  let parts := firstLineTokens s
  if parts.length < 2 then none
  else
    match pyInt? (parts.headD []) with
    | none => none
    | some n => some ⟨pyPathStr path, n, (parts[1]?).getD []⟩

/-- `ICARTTReader.read_header_lines`: up to `header_length` raw lines (a
non-positive count reads none, as `range(n)` is empty), each with
trailing newlines stripped. -/
def read_header_lines (s : Str) (info : ICARTTInfo) : List Str :=
  ((fileLines s).take info.header_length.toNat).map pyRstripNl

/-- Effective index of a Python slice bound: negative bounds count from
the end and are clamped at 0, non-negative bounds are clamped at the
length. -/
def pySliceIdx (len : Nat) (i : Int) : Nat :=
  if i < 0 then (i + len).toNat else min i.toNat len

/-- Python `xs[a : b]` (step 1). -/
def pySlice {α : Type} (xs : List α) (a b : Int) : List α :=
  (xs.drop (pySliceIdx xs.length a)).take (pySliceIdx xs.length b - pySliceIdx xs.length a)

/-- Python `s or None` for an optional-string field: an empty string
normalizes to `None`. -/
def orNone (s : Str) : Option Str := if s.isEmpty then none else some s

/-- One iteration of the block loop in `read_variable_defs`: split the
line on commas, trim the tokens; `none` models the `continue` on an empty
token list (unreachable, since a split is never empty). -/
def parseVarLine? (ln : Str) : Option VariableDef :=
  match (splitOnChar ',' ln).map pyStrip with
  | [] => none
  | name :: rest =>
    some ⟨name,
          (rest.head?).bind orNone,
          if rest.length < 2 then none
          else orNone (pyStrip (joinWithChar ',' (rest.drop 1))),
          none⟩

/-- Association-list lookup with decidable key equality (Python
`dict.get`). -/
def lookupKey {α : Type} (k : Str) : List (Str × α) → Option α
  | [] => none
  | kv :: rest => if k = kv.1 then some kv.2 else lookupKey k rest

/-- `ICARTTReader._guess_per_variable_missing`: the best-effort hook
currently always returns the empty mapping. -/
def guess_per_variable_missing : List (Str × Int) := []

/-- `ICARTTReader.read_variable_defs`: requires 11 header lines, parses a
count at line index 9, slices a block starting at index 12 and parses
each block line; the per-variable missing hook is then applied (it is
empty, so the list is returned unchanged). -/
def read_variable_defs (s : Str) (info : ICARTTInfo) : List VariableDef :=
  let lines := read_header_lines s info
  if lines.length < 11 then []
  else
    match pyInt? (pyStrip ((lines[9]?).getD [])) with
    | none => []
    | some n_dep =>
      let block := pySlice lines 12 (12 + n_dep)
      let out := block.filterMap parseVarLine?
      let missMap := guess_per_variable_missing
      if missMap.isEmpty then out
      else out.map (fun v => ⟨v.name, v.unit, v.description, lookupKey v.name missMap⟩)

/-- The signed integer value `int(tok)` of a sign-plus-digits token. -/
def signedTokVal (tok : Str) : Int :=
  match tok with
  | [] => 0
  | c :: rest => if c = '-' then -(Int.ofNat (digitsToNat rest)) else Int.ofNat (digitsToNat rest)

/-- One token of the missing-value scan, mirroring the loop body: the
token must start with `-` or `+` (`tok.startswith(("-", "+"))`), its
remainder must be a nonempty digit string (`tok[1:].isdigit()`), and the
parsed value is kept when `abs(val) >= 999`. -/
def sentinelOfTok (tok : Str) : Option Int :=
  match tok with
  | [] => none
  | c :: rest =>
    if (c = '-' || c = '+') && (!rest.isEmpty && rest.all Char.isDigit) then
      if 999 ≤ (signedTokVal (c :: rest)).natAbs then some (signedTokVal (c :: rest))
      else none
    else none

/-- Candidates contributed by one header line: commas become spaces, the
line splits into whitespace tokens, each sentinel-shaped token is kept. -/
def sentinelsOfLine (ln : Str) : List Int :=
  (splitWs (ln.map (fun c => if c = ',' then ' ' else c))).filterMap sentinelOfTok

/-- The raw (pre-deduplication) candidate list of
`_guess_missing_values`, scanning at most the first 200 header lines. -/
def missing_candidates (s : Str) (info : ICARTTInfo) : List Int :=
  let lines := read_header_lines s info
  (lines.take (min lines.length 200)).flatMap sentinelsOfLine

/-- Deduplication preserving first occurrences, given an already-seen
set. -/
def dedupSeen (seen : List Int) : List Int → List Int
  | [] => []
  | x :: xs => if x ∈ seen then dedupSeen seen xs else x :: dedupSeen (x :: seen) xs

/-- Python-style order-preserving deduplication (`seen` set + `ordered`
list). -/
def dedupFirst (l : List Int) : List Int := dedupSeen [] l

/-- The fixed fallback sentinel list of `_guess_missing_values`. -/
def fallbackMissing : List Int := [-9999, -99999, -8888, 9999, 99999]

/-- `ICARTTReader._guess_missing_values`. -/
def guess_missing_values (s : Str) (info : ICARTTInfo) : List Int :=
  let ordered := dedupFirst (missing_candidates s info)
  if ordered.isEmpty then fallbackMissing else ordered

/-- Metadata key constants (the literal Python dict keys). -/
def keyPath : Str := ( "path" ).toList

/-- Metadata key `header_length`. -/
def keyHeaderLength : Str := ( "header_length" ).toList

/-- Metadata key `ffi`. -/
def keyFfi : Str := ( "ffi" ).toList

/-- Metadata key `pi`. -/
def keyPi : Str := ( "pi" ).toList

/-- Metadata key `organization`. -/
def keyOrganization : Str := ( "organization" ).toList

/-- Metadata key `data_description`. -/
def keyDataDescription : Str := ( "data_description" ).toList

/-- Metadata key `mission`. -/
def keyMission : Str := ( "mission" ).toList

/-- Metadata key `volume_info`. -/
def keyVolumeInfo : Str := ( "volume_info" ).toList

/-- Metadata key `date_info`. -/
def keyDateInfo : Str := ( "date_info" ).toList

/-- Metadata key `data_interval`. -/
def keyDataInterval : Str := ( "data_interval" ).toList

/-- Metadata key `independent_variable`. -/
def keyIndependentVariable : Str := ( "independent_variable" ).toList

/-- The `safe(i)` helper of `read_metadata`: the trimmed line at index
`i`, or the empty string out of range. -/
def safeLine (lines : List Str) (i : Nat) : Str :=
  match lines[i]? with
  | some l => pyStrip l
  | none => []

/-- `ICARTTReader.read_metadata`: an insertion-ordered dict (association
list) of the fixed keys, with empty values filtered out at the end. -/
def read_metadata (path : Str) (s : Str) (info : ICARTTInfo) : List (Str × Str) :=
  let lines := read_header_lines s info
  ([(keyPath, pyPathStr path),
    (keyHeaderLength, intRepr info.header_length),
    (keyFfi, info.ffi),
    (keyPi, safeLine lines 1),
    (keyOrganization, safeLine lines 2),
    (keyDataDescription, safeLine lines 3),
    (keyMission, safeLine lines 4),
    (keyVolumeInfo, safeLine lines 5),
    (keyDateInfo, safeLine lines 6),
    (keyDataInterval, safeLine lines 7),
    (keyIndependentVariable, safeLine lines 8)]).filter (fun kv => !kv.2.isEmpty)

/-- A table cell: either the explicit null marker or raw cell text. -/
inductive Cell : Type where
  | null : Cell
  | val : Str → Cell
deriving DecidableEq

/-- Modelled from the spec: the `Table` produced by the external
tabular-data engine — an ordered sequence of named columns and an
ordered sequence of rows whose length equals the column count. -/
structure Table where
  colNames : List Str
  rows : List (List Cell)
deriving DecidableEq

/-- Missing-token matching of the engine: a raw cell whose text is one of
the missing-value tokens becomes the null marker. -/
def cellOfTok (na : List Str) (tok : Str) : Cell :=
  if na.elem tok then Cell.null else Cell.val tok

/-- Modelled from the spec: `parse_csv` of the external tabular-data
engine (the repository delegates to `pandas.read_csv`, excluded as a
library dependency).  The first line gives the column names, the
remaining lines are comma-split data rows, missing-value tokens are
matched against raw cell text; a structural row-length mismatch or an
empty input is the `ParseError` path (`none`). -/
def parse_csv_lines (lines : List Str) (na : List Str) : Option Table :=
  match lines with
  | [] => none
  | hd :: rest =>
    let names := splitOnChar ',' hd
    let raw := rest.map (fun ln => splitOnChar ',' ln)
    if raw.all (fun r => r.length == names.length) then
      some ⟨names, raw.map (fun r => r.map (cellOfTok na))⟩
    else none

/-- The `skiprows` computed by `read_table`:
`max(header_length - 1, 0)`. -/
def skiprowsOf (info : ICARTTInfo) : Nat := (max (info.header_length - 1) 0).toNat

/-- `ICARTTReader.read_table`: skip `max(header_length - 1, 0)` lines,
parse the rest as CSV with the supplied or guessed missing tokens
(stringified for matching), then optionally trim the column names. -/
def read_table (s : Str) (info : ICARTTInfo) (na_values : Option (List Int))
    (strip_colnames : Bool) : Option Table :=
  let na := (match na_values with
             | some l => l
             | none => guess_missing_values s info).map intRepr
  let lines := (fileLines s).map pyRstripNl
  match parse_csv_lines (lines.drop (skiprowsOf info)) na with
  | none => none
  | some t =>
    some (if strip_colnames then ⟨t.colNames.map pyStrip, t.rows⟩ else t)

/-- Text written for one cell: the null marker serializes as the empty
field. -/
def cellText : Cell → Str
  | Cell.null => []
  | Cell.val s => s

/-- Modelled from the spec: the lines of the row-delimited text export
(`Table.write` of the external engine; `to_csv` in the repository) —
column names first, then one comma-joined line per row. -/
def csvLines (t : Table) : List Str :=
  joinWithChar ',' t.colNames :: t.rows.map (fun r => joinWithChar ',' (r.map cellText))

/-- Concatenate lines, terminating each with a newline. -/
def unlinesNl : List Str → Str
  | [] => []
  | l :: rest => l ++ '\n' :: unlinesNl rest

/-- The full exported CSV text (each line newline-terminated, as
`pandas.DataFrame.to_csv` writes it). -/
def toCsvText (t : Table) : Str := unlinesNl (csvLines t)

/-- Re-parse exported CSV text: split it back into lines and run the CSV
parser. -/
def reparseCsv (text : Str) (na : List Str) : Option Table :=
  parse_csv_lines ((fileLines text).map pyRstripNl) na

/-- Total number of cells of a table. -/
def cellCount (t : Table) : Nat := (t.rows.map List.length).sum

/-- Unfolding equation of `splitOnChar` on a cons. -/
theorem splitOnChar_cons (c x : Char) (xs : Str) :
    splitOnChar c (x :: xs) =
      match splitOnChar c xs with
      | [] => [[x]]
      | y :: ys => if x = c then [] :: y :: ys else (x :: y) :: ys := by
  rw [splitOnChar]

/-- A split never returns the empty list of chunks. -/
theorem splitOnChar_ne_nil (c : Char) (s : Str) : splitOnChar c s ≠ [] := by
  induction s with
  | nil => simp [splitOnChar]
  | cons x xs ih =>
    rw [splitOnChar_cons]
    cases h : splitOnChar c xs with
    | nil => simp
    | cons y ys =>
      split
      · simp
      · split <;> simp

/-- Chunks produced by a split do not contain the separator. -/
theorem not_mem_of_mem_splitOnChar {c : Char} {s : Str} :
    ∀ y ∈ splitOnChar c s, c ∉ y := by
  induction s with
  | nil =>
    intro y hy
    simp [splitOnChar] at hy
    simp [hy]
  | cons x xs ih =>
    intro y hy
    rw [splitOnChar_cons] at hy
    cases h : splitOnChar c xs with
    | nil => exact absurd h (splitOnChar_ne_nil c xs)
    | cons z zs =>
      rw [h] at hy
      by_cases hx : x = c
      · simp [hx] at hy
        rcases hy with hy | hy | hy
        · simp [hy]
        · exact hy ▸ ih z (h ▸ List.mem_cons_self z zs)
        · exact ih y (h ▸ List.mem_cons_of_mem z hy)
      · simp [hx] at hy
        rcases hy with hy | hy
        · subst hy
          intro hc
          rcases List.mem_cons.mp hc with hc | hc
          · exact hx hc.symm
          · exact ih z (h ▸ List.mem_cons_self z zs) hc
        · exact ih y (h ▸ List.mem_cons_of_mem z hy)

/-- Characters of a chunk of a split are characters of the input. -/
theorem mem_of_mem_splitOnChar {c : Char} {s : Str} :
    ∀ y ∈ splitOnChar c s, ∀ ch ∈ y, ch ∈ s := by
  induction s with
  | nil =>
    intro y hy ch hch
    simp [splitOnChar] at hy
    subst hy
    simp at hch
  | cons x xs ih =>
    intro y hy ch hch
    rw [splitOnChar_cons] at hy
    cases h : splitOnChar c xs with
    | nil => exact absurd h (splitOnChar_ne_nil c xs)
    | cons z zs =>
      rw [h] at hy
      by_cases hx : x = c
      · simp [hx] at hy
        rcases hy with hy | hy | hy
        · simp [hy] at hch
        · exact List.mem_cons_of_mem x (ih z (h ▸ List.mem_cons_self z zs) ch (hy ▸ hch))
        · exact List.mem_cons_of_mem x (ih y (h ▸ List.mem_cons_of_mem z hy) ch hch)
      · simp [hx] at hy
        rcases hy with hy | hy
        · subst hy
          rcases List.mem_cons.mp hch with hch | hch
          · exact hch ▸ List.mem_cons_self x xs
          · exact List.mem_cons_of_mem x (ih z (h ▸ List.mem_cons_self z zs) ch hch)
        · exact List.mem_cons_of_mem x (ih y (h ▸ List.mem_cons_of_mem z hy) ch hch)

/-- A separator-free string splits into a single chunk. -/
theorem splitOnChar_eq_singleton {c : Char} {s : Str} (h : c ∉ s) :
    splitOnChar c s = [s] := by
  induction s with
  | nil => simp [splitOnChar]
  | cons x xs ih =>
    rw [splitOnChar_cons, ih (fun hc => h (List.mem_cons_of_mem x hc))]
    have hx : x ≠ c := fun he => h (he ▸ List.mem_cons_self x xs)
    simp [hx]

/-- Splitting after a separator-free prefix followed by the separator
peels off that prefix as the first chunk. -/
theorem splitOnChar_append_cons (c : Char) {x : Str} (rest : Str) (hx : c ∉ x) :
    splitOnChar c (x ++ c :: rest) = x :: splitOnChar c rest := by
  induction x with
  | nil =>
    rw [List.nil_append, splitOnChar_cons]
    cases h : splitOnChar c rest with
    | nil => exact absurd h (splitOnChar_ne_nil c rest)
    | cons z zs => simp
  | cons a x ih =>
    have ha : a ≠ c := fun he => hx (he ▸ List.mem_cons_self a x)
    have hx' : c ∉ x := fun hc => hx (List.mem_cons_of_mem a hc)
    rw [List.cons_append, splitOnChar_cons, ih hx']
    simp [ha]

/-- Splitting a separator-join of separator-free chunks recovers the
chunks. -/
theorem splitOnChar_joinWithChar {c : Char} {ls : List Str} (hne : ls ≠ [])
    (h : ∀ y ∈ ls, c ∉ y) : splitOnChar c (joinWithChar c ls) = ls := by
  induction ls with
  | nil => exact absurd rfl hne
  | cons x ls ih =>
    cases ls with
    | nil => simp [joinWithChar, splitOnChar_eq_singleton (h x (List.mem_cons_self x []))]
    | cons y ys =>
      rw [joinWithChar, splitOnChar_append_cons c _ (h x (List.mem_cons_self x (y :: ys)))]
      rw [ih (by simp) (fun z hz => h z (List.mem_cons_of_mem x hz))]

/-- A join with separator `c` contains no character `d ≠ c` absent from
all chunks. -/
theorem not_mem_joinWithChar {c d : Char} (hdc : d ≠ c) {ls : List Str}
    (h : ∀ y ∈ ls, d ∉ y) : d ∉ joinWithChar c ls := by
  induction ls with
  | nil => simp [joinWithChar]
  | cons x ls ih =>
    cases ls with
    | nil => exact h x (List.mem_cons_self x [])
    | cons y ys =>
      rw [joinWithChar]
      intro hd
      rcases List.mem_append.mp hd with hd | hd
      · exact h x (List.mem_cons_self x (y :: ys)) hd
      · rcases List.mem_cons.mp hd with hd | hd
        · exact hdc hd
        · exact ih (fun z hz => h z (List.mem_cons_of_mem x hz)) hd

/-- `dropWhile` is the identity when no element satisfies the
predicate. -/
theorem dropWhile_eq_self_of {α : Type} (p : α → Bool) (l : List α)
    (h : ∀ x ∈ l, p x = false) : l.dropWhile p = l := by
  cases l with
  | nil => rfl
  | cons x xs => simp [List.dropWhile_cons, h x (List.mem_cons_self x xs)]

/-- Characters of a stripped string are characters of the input. -/
theorem mem_of_mem_pyStrip {ch : Char} {s : Str} (h : ch ∈ pyStrip s) : ch ∈ s := by
  unfold pyStrip at h
  rw [List.mem_reverse] at h
  have h1 := (List.dropWhile_sublist (l := (s.dropWhile isPySpace).reverse) isPySpace).mem h
  rw [List.mem_reverse] at h1
  exact (List.dropWhile_sublist (l := s) isPySpace).mem h1

/-- Stripping trailing newlines from a newline-free string changes
nothing. -/
theorem pyRstripNl_eq_self {s : Str} (h : '\n' ∉ s) : pyRstripNl s = s := by
  unfold pyRstripNl
  rw [dropWhile_eq_self_of _ _ (fun x hx => by
    rw [List.mem_reverse] at hx
    simp only [decide_eq_false_iff_not]
    exact fun he => h (he ▸ hx))]
  exact List.reverse_reverse s

/-- Stripping trailing newlines undoes a single appended newline. -/
theorem pyRstripNl_append_nl {s : Str} (h : '\n' ∉ s) : pyRstripNl (s ++ ['\n']) = s := by
  unfold pyRstripNl
  rw [List.reverse_append]
  simp only [List.reverse_cons, List.reverse_nil, List.nil_append, List.singleton_append,
    List.dropWhile_cons]
  rw [if_pos (by simp)]
  rw [dropWhile_eq_self_of _ _ (fun x hx => by
    rw [List.mem_reverse] at hx
    simp only [decide_eq_false_iff_not]
    exact fun he => h (he ▸ hx))]
  exact List.reverse_reverse s

/-- A raw file line, after trailing-newline stripping, is newline-free. -/
theorem not_nl_mem_pyRstripNl_of_mem_fileLines {s l : Str} (h : l ∈ fileLines s) :
    '\n' ∉ pyRstripNl l := by
  unfold fileLines fileLinesAux at h
  have hchunk : ∀ y ∈ splitOnChar '\n' s, '\n' ∉ y := not_mem_of_mem_splitOnChar
  split at h
  case h_1 heq =>
    rcases List.mem_map.mp h with ⟨y, hy, rfl⟩
    have hyn : '\n' ∉ y := hchunk y ((List.dropLast_sublist _).mem hy)
    rw [pyRstripNl_append_nl hyn]
    exact hyn
  case h_2 l' heq =>
    rcases List.mem_append.mp h with h | h
    · rcases List.mem_map.mp h with ⟨y, hy, rfl⟩
      have hyn : '\n' ∉ y := hchunk y ((List.dropLast_sublist _).mem hy)
      rw [pyRstripNl_append_nl hyn]
      exact hyn
    · rcases List.mem_singleton.mp h with rfl
      have hln : '\n' ∉ l := hchunk l (List.mem_of_getLast?_eq_some heq)
      rw [pyRstripNl_eq_self hln]
      exact hln
  case h_3 heq =>
    rcases List.mem_map.mp h with ⟨y, hy, rfl⟩
    have hyn : '\n' ∉ y := hchunk y ((List.dropLast_sublist _).mem hy)
    rw [pyRstripNl_append_nl hyn]
    exact hyn

/-- Splitting a newline-terminated concatenation on newlines gives the
lines plus one final empty chunk. -/
theorem splitOnChar_unlinesNl {ls : List Str} (h : ∀ l ∈ ls, '\n' ∉ l) :
    splitOnChar '\n' (unlinesNl ls) = ls ++ [[]] := by
  induction ls with
  | nil => simp [unlinesNl, splitOnChar]
  | cons x ls ih =>
    rw [unlinesNl, splitOnChar_append_cons '\n' _ (h x (List.mem_cons_self x ls))]
    rw [ih (fun l hl => h l (List.mem_cons_of_mem x hl))]
    rfl

/-- Reading back a newline-terminated concatenation recovers the raw
lines, each with its trailing newline. -/
theorem fileLines_unlinesNl {ls : List Str} (h : ∀ l ∈ ls, '\n' ∉ l) :
    fileLines (unlinesNl ls) = ls.map (fun l => l ++ ['\n']) := by
  unfold fileLines fileLinesAux
  rw [splitOnChar_unlinesNl h]
  simp [List.dropLast_concat, List.getLast?_concat]

/-- Reading back a newline-terminated concatenation and stripping the
newlines is the identity on the lines. -/
theorem map_pyRstripNl_fileLines_unlinesNl {ls : List Str} (h : ∀ l ∈ ls, '\n' ∉ l) :
    (fileLines (unlinesNl ls)).map pyRstripNl = ls := by
  rw [fileLines_unlinesNl h, List.map_map]
  have : ∀ l ∈ ls, (pyRstripNl ∘ fun l => l ++ ['\n']) l = id l := by
    intro l hl
    exact pyRstripNl_append_nl (h l hl)
  rw [List.map_congr_left this, List.map_id]

/-- The specified reading of one variable-definition block line: split on
comma, trim tokens; the first token is the name, the second (if present,
empty normalized to absent) the unit, the rest rejoined with commas and
trimmed (empty normalized to absent) the description. -/
def varLineSpec (ln : Str) : VariableDef :=
  ⟨((splitOnChar ',' ln).map pyStrip).headD [],
   match ((splitOnChar ',' ln).map pyStrip)[1]? with
   | none => none
   | some u => if u.isEmpty then none else some u,
   if ((splitOnChar ',' ln).map pyStrip).length ≤ 2 then none
   else if (pyStrip (joinWithChar ',' (((splitOnChar ',' ln).map pyStrip).drop 2))).isEmpty then none
   else some (pyStrip (joinWithChar ',' (((splitOnChar ',' ln).map pyStrip).drop 2))),
   none⟩

/-- The loop body of `read_variable_defs` never skips a line and produces
exactly the specified entry. -/
theorem parseVarLine_eq_spec (ln : Str) : parseVarLine? ln = some (varLineSpec ln) := by
  unfold parseVarLine? varLineSpec
  cases h : splitOnChar ',' ln with
  | nil => exact absurd h (splitOnChar_ne_nil ',' ln)
  | cons a rest =>
    cases rest with
    | nil => simp [orNone]
    | cons b rest2 =>
      cases rest2 with
      | nil => simp [orNone]
      | cons d rest3 => simp [orNone]

/-- Parsing the block with `filterMap` is just mapping the specified
per-line reading. -/
theorem filterMap_parseVarLine (block : List Str) :
    block.filterMap parseVarLine? = block.map varLineSpec := by
  induction block with
  | nil => rfl
  | cons x xs ih => simp [List.filterMap_cons, parseVarLine_eq_spec, ih]

/-- The specified candidate test of the missing-value heuristic: a
leading sign, a nonempty all-digit remainder, and an absolute value of at
least 999. -/
def isSentinelTok (tok : Str) : Bool :=
  match tok with
  | [] => false
  | c :: rest =>
    (c = '-' || c = '+') && (!rest.isEmpty && rest.all Char.isDigit)
      && decide (999 ≤ (signedTokVal (c :: rest)).natAbs)

/-- The loop body of the missing-value scan keeps exactly the tokens
passing the specified candidate test, valued by `int(tok)`. -/
theorem sentinelOfTok_eq (tok : Str) :
    sentinelOfTok tok = if isSentinelTok tok then some (signedTokVal tok) else none := by
  unfold sentinelOfTok isSentinelTok
  cases tok with
  | nil => rfl
  | cons c rest =>
    by_cases h1 : (c = '-' || c = '+') && (!rest.isEmpty && rest.all Char.isDigit)
    · by_cases h2 : 999 ≤ (signedTokVal (c :: rest)).natAbs
      · simp [h1, h2]
      · simp [h1, h2]
    · simp [h1]

/-- `filterMap` by an `if-some-else-none` function is filtering then
mapping. -/
theorem filterMap_eq_filter_map {α β : Type} (f : α → Option β) (p : α → Bool) (g : α → β)
    (hf : ∀ x, f x = if p x then some (g x) else none) (l : List α) :
    l.filterMap f = (l.filter p).map g := by
  induction l with
  | nil => rfl
  | cons x xs ih =>
    by_cases hp : p x
    · simp [List.filterMap_cons, List.filter_cons, hf, hp, ih]
    · simp [List.filterMap_cons, List.filter_cons, hf, hp, ih]

/-- `filterMap` distributes over `flatMap`. -/
theorem filterMap_flatMap_eq {α β γ : Type} (l : List α) (g : α → List β) (f : β → Option γ) :
    (l.flatMap g).filterMap f = l.flatMap (fun x => (g x).filterMap f) := by
  induction l with
  | nil => rfl
  | cons x xs ih => simp [List.flatMap_cons, List.filterMap_append, ih]

/-- The candidate list exactly as the claim states it: over the first at
most 200 header lines, the whitespace/comma tokens passing the candidate
test, valued by `int(tok)`, in order. -/
def claimCandidates (s : Str) (info : ICARTTInfo) : List Int :=
  ((((read_header_lines s info).take 200).flatMap
      (fun ln => splitWs (ln.map (fun c => if c = ',' then ' ' else c)))).filter
    isSentinelTok).map signedTokVal

/-- The code's raw candidate list coincides with the claim's description
of it. -/
theorem missing_candidates_eq_claim (s : Str) (info : ICARTTInfo) :
    missing_candidates s info = claimCandidates s info := by
  simp only [missing_candidates, claimCandidates, sentinelsOfLine]
  have htake : (read_header_lines s info).take (min (read_header_lines s info).length 200)
      = (read_header_lines s info).take 200 := by
    rw [List.take_eq_take]
    omega
  rw [htake]
  rw [← filterMap_eq_filter_map sentinelOfTok isSentinelTok signedTokVal sentinelOfTok_eq]
  rw [filterMap_flatMap_eq]
  rfl

/-- Membership in the seeded deduplication. -/
theorem mem_dedupSeen (seen : List Int) (l : List Int) (v : Int) :
    v ∈ dedupSeen seen l ↔ v ∈ l ∧ v ∉ seen := by
  induction l generalizing seen with
  | nil => simp [dedupSeen]
  | cons x xs ih =>
    by_cases hx : x ∈ seen
    · rw [dedupSeen, if_pos hx, ih]
      constructor
      · exact fun ⟨h1, h2⟩ => ⟨List.mem_cons_of_mem x h1, h2⟩
      · rintro ⟨h1, h2⟩
        rcases List.mem_cons.mp h1 with rfl | h1
        · exact absurd hx h2
        · exact ⟨h1, h2⟩
    · rw [dedupSeen, if_neg hx]
      by_cases hv : v = x
      · subst hv
        simp [hx]
      · simp only [List.mem_cons, hv, false_or]
        rw [ih]
        simp [List.mem_cons, hv]

/-- The seeded deduplication result has no duplicates. -/
theorem nodup_dedupSeen (seen : List Int) (l : List Int) : (dedupSeen seen l).Nodup := by
  induction l generalizing seen with
  | nil => simp [dedupSeen]
  | cons x xs ih =>
    by_cases hx : x ∈ seen
    · rw [dedupSeen, if_pos hx]
      exact ih seen
    · rw [dedupSeen, if_neg hx]
      refine List.nodup_cons.mpr ⟨?_, ih (x :: seen)⟩
      intro hmem
      exact ((mem_dedupSeen (x :: seen) xs x).mp hmem).2 (List.mem_cons_self x seen)

/-- The seeded deduplication result is a sublist (order preserved). -/
theorem dedupSeen_sublist (seen : List Int) (l : List Int) : List.Sublist (dedupSeen seen l) l := by
  induction l generalizing seen with
  | nil => simp [dedupSeen]
  | cons x xs ih =>
    by_cases hx : x ∈ seen
    · rw [dedupSeen, if_pos hx]
      exact (ih seen).cons x
    · rw [dedupSeen, if_neg hx]
      exact (ih (x :: seen)).cons₂ x

/-- Deduplication is empty exactly on the empty list. -/
theorem dedupFirst_eq_nil_iff (l : List Int) : dedupFirst l = [] ↔ l = [] := by
  unfold dedupFirst
  cases l with
  | nil => simp [dedupSeen]
  | cons x xs => simp [dedupSeen]

/-- A Python slice `xs[12 : 12 + count]` with a non-negative in-range
count is a drop-then-take. -/
theorem pySlice_block {α : Type} (xs : List α) (count : Int) (h0 : 0 ≤ count)
    (hlen : 12 + count.toNat ≤ xs.length) :
    pySlice xs 12 (12 + count) = (xs.drop 12).take count.toNat := by
  unfold pySlice pySliceIdx
  rw [if_neg (by omega), if_neg (by omega)]
  have h12 : (12 : Int).toNat = 12 := rfl
  have h3 : (12 + count).toNat = 12 + count.toNat := by omega
  have h4 : min ((12 : Int).toNat) xs.length = 12 := by omega
  have h5 : min ((12 + count).toNat) xs.length = 12 + count.toNat := by omega
  rw [h4, h5]
  congr 1
  omega

/-- A Python slice with collapsed effective bounds is empty. -/
theorem pySlice_eq_nil {α : Type} (xs : List α) (a b : Int)
    (h : pySliceIdx xs.length b ≤ pySliceIdx xs.length a) : pySlice xs a b = [] := by
  unfold pySlice
  rw [Nat.sub_eq_zero_of_le h]
  exact List.take_zero _

/-- Decimal digit strings are never empty. -/
theorem natRepr_ne_nil (n : Nat) : natRepr n ≠ [] := by
  rw [natRepr, natReprAux]
  split
  · simp
  · simp

/-- Python `str(i)` is never the empty string. -/
theorem intRepr_ne_nil (i : Int) : intRepr i ≠ [] := by
  unfold intRepr
  split
  · simp
  · exact natRepr_ne_nil _

/-- Rendered paths are never the empty string. -/
theorem pyPathStr_ne_nil (p : Str) : pyPathStr p ≠ [] := by
  unfold pyPathStr
  split
  · simp
  · rename_i h
    exact fun he => h (by simp [he])

/-- A key is found by `lookupKey` exactly when some pair carries it. -/
theorem lookupKey_isSome_iff {α : Type} (k : Str) (l : List (Str × α)) :
    (lookupKey k l).isSome ↔ ∃ v, (k, v) ∈ l := by
  induction l with
  | nil => simp [lookupKey]
  | cons kv rest ih =>
    obtain ⟨k1, v1⟩ := kv
    rw [lookupKey]
    by_cases hk : k = k1
    · subst hk
      rw [if_pos rfl]
      simp only [Option.isSome_some, true_iff]
      exact ⟨v1, List.mem_cons_self _ rest⟩
    · rw [if_neg hk, ih]
      simp [List.mem_cons, Prod.mk.injEq, hk]

/-- Well-formedness of a parsed table: at least one column, column names
and cell texts free of commas and newlines, and every row as long as the
column list. -/
def TableWf (t : Table) : Prop :=
  t.colNames ≠ [] ∧
  (∀ nm ∈ t.colNames, ',' ∉ nm ∧ '\n' ∉ nm) ∧
  (∀ r ∈ t.rows, r.length = t.colNames.length ∧
    ∀ cl ∈ r, ',' ∉ cellText cl ∧ '\n' ∉ cellText cl)

/-- Any table the CSV parser returns on newline-free lines is
well-formed. -/
theorem parse_csv_lines_wf {lines na : List Str} {t : Table}
    (hnl : ∀ l ∈ lines, '\n' ∉ l)
    (h : parse_csv_lines lines na = some t) : TableWf t := by
  cases lines with
  | nil => simp [parse_csv_lines] at h
  | cons hd rest =>
    simp only [parse_csv_lines] at h
    split at h
    case isFalse => exact absurd h (by simp)
    case isTrue hall =>
      injection h with h
      subst h
      refine ⟨splitOnChar_ne_nil ',' hd, ?_, ?_⟩
      · intro nm hnm
        refine ⟨not_mem_of_mem_splitOnChar nm hnm, fun hc => ?_⟩
        exact hnl hd (List.mem_cons_self hd rest) (mem_of_mem_splitOnChar nm hnm '\n' hc)
      · intro r hr
        rcases List.mem_map.mp hr with ⟨r0, hr0, rfl⟩
        rcases List.mem_map.mp hr0 with ⟨ln, hln, rfl⟩
        have hlen := List.all_eq_true.mp hall _ (List.mem_map_of_mem (fun ln => splitOnChar ',' ln) hln)
        refine ⟨?_, ?_⟩
        · simpa using hlen
        · intro cl hcl
          rcases List.mem_map.mp hcl with ⟨tok, htok, rfl⟩
          unfold cellOfTok
          split
          · simp [cellText]
          · refine ⟨not_mem_of_mem_splitOnChar tok htok, fun hc => ?_⟩
            exact hnl ln (List.mem_cons_of_mem hd hln) (mem_of_mem_splitOnChar tok htok '\n' hc)

/-- Trimming the column names preserves well-formedness. -/
theorem tableWf_strip {t : Table} (h : TableWf t) :
    TableWf ⟨t.colNames.map pyStrip, t.rows⟩ := by
  obtain ⟨hne, hnames, hrows⟩ := h
  refine ⟨by simpa using hne, ?_, ?_⟩
  · intro nm hnm
    rcases List.mem_map.mp hnm with ⟨nm0, hnm0, rfl⟩
    exact ⟨fun hc => (hnames nm0 hnm0).1 (mem_of_mem_pyStrip hc),
           fun hc => (hnames nm0 hnm0).2 (mem_of_mem_pyStrip hc)⟩
  · intro r hr
    refine ⟨?_, (hrows r hr).2⟩
    simpa using (hrows r hr).1

/-- Any table `read_table` returns is well-formed. -/
theorem read_table_wf {s : Str} {info : ICARTTInfo} {naOpt : Option (List Int)} {b : Bool}
    {t : Table} (h : read_table s info naOpt b = some t) : TableWf t := by
  simp only [read_table] at h
  split at h
  case h_1 => exact absurd h (by simp)
  case h_2 t0 heq =>
    have hnl : ∀ l ∈ ((fileLines s).map pyRstripNl).drop (skiprowsOf info), '\n' ∉ l := by
      intro l hl
      rcases List.mem_map.mp (List.mem_of_mem_drop hl) with ⟨raw, hraw, rfl⟩
      exact not_nl_mem_pyRstripNl_of_mem_fileLines hraw
    have hwf := parse_csv_lines_wf hnl heq
    injection h with h
    subst h
    cases b with
    | false => simpa using hwf
    | true => simpa using tableWf_strip hwf

/-- Re-parsing the exported text of a well-formed table succeeds and
reproduces the column names and the row shapes (cell values are re-matched
against the missing tokens). -/
theorem reparseCsv_toCsvText {t : Table} (h : TableWf t) (na : List Str) :
    reparseCsv (toCsvText t) na =
      some ⟨t.colNames, t.rows.map (fun r => r.map (fun cl => cellOfTok na (cellText cl)))⟩ := by
  obtain ⟨hne, hnames, hrows⟩ := h
  have hlines : ∀ l ∈ csvLines t, '\n' ∉ l := by
    intro l hl
    rcases List.mem_cons.mp hl with rfl | hl
    · exact not_mem_joinWithChar (by decide) (fun y hy => (hnames y hy).2)
    · rcases List.mem_map.mp hl with ⟨r, hr, rfl⟩
      refine not_mem_joinWithChar (by decide) (fun y hy => ?_)
      rcases List.mem_map.mp hy with ⟨cl, hcl, rfl⟩
      exact ((hrows r hr).2 cl hcl).2
  unfold reparseCsv toCsvText
  rw [map_pyRstripNl_fileLines_unlinesNl hlines]
  have hn : splitOnChar ',' (joinWithChar ',' t.colNames) = t.colNames :=
    splitOnChar_joinWithChar hne (fun y hy => (hnames y hy).1)
  have hrow : ∀ r ∈ t.rows,
      splitOnChar ',' (joinWithChar ',' (r.map cellText)) = r.map cellText := by
    intro r hr
    apply splitOnChar_joinWithChar
    · intro he
      have h0 : r.length = 0 := by simpa using congrArg List.length he
      have hlen := (hrows r hr).1
      apply hne
      cases hcn : t.colNames with
      | nil => rfl
      | cons a l =>
        rw [hcn] at hlen
        simp at hlen
        omega
    · intro y hy
      rcases List.mem_map.mp hy with ⟨cl, hcl, rfl⟩
      exact ((hrows r hr).2 cl hcl).1
  simp only [csvLines, parse_csv_lines, List.map_map]
  have hraw : ∀ r ∈ t.rows,
      ((fun ln => splitOnChar ',' ln) ∘ fun r => joinWithChar ',' (r.map cellText)) r
        = r.map cellText := fun r hr => hrow r hr
  rw [List.map_congr_left hraw, hn]
  have hall : (t.rows.map (fun r => r.map cellText)).all
      (fun r => r.length == t.colNames.length) = true := by
    rw [List.all_eq_true]
    intro r' hr'
    rcases List.mem_map.mp hr' with ⟨r, hr, rfl⟩
    simpa using (hrows r hr).1
  rw [if_pos hall]
  refine congrArg some (congrArg (Table.mk t.colNames) ?_)
  apply List.map_congr_left
  intro r hr
  simp only [Function.comp_apply]
  rw [hrow r hr, List.map_map]
  rfl

/-- A demo reader path. -/
def demoPath : Str := ( "p" ).toList

/-- Demo file whose first line declares header length 0. -/
def fileZero : Str := ( "0,1001\nx\n" ).toList

/-- The info cached when constructing on `fileZero`. -/
def infoZero : ICARTTInfo := ⟨demoPath, 0, ( "1001" ).toList⟩

/-- Demo file whose first line declares header length -5. -/
def fileNeg : Str := ( "-5,1001\nx\n" ).toList

/-- Demo file in the conventional FFI 1001 layout: header length 14, two
dependent variables defined at line indices 12 and 13, data header row at
line index 13 + 1. -/
def fileConv : Str :=
  ( "14,1001\nPI\nORG\nDESC\nMISS\nVOL\nDATE\nINT\nINDEP\n2\nx\ny\nTEMP, degC, Ambient temperature\nPRES, hPa, \ntime,temp,pres\n0,-9999,1013.2\n" ).toList

/-- The info cached when constructing on `fileConv`. -/
def infoConv : ICARTTInfo := ⟨demoPath, 14, ( "1001" ).toList⟩

/-- Demo file whose header contains exactly the fallback sentinels as
signed tokens. -/
def fileSent : Str := ( "2,1001\n-9999 -99999 -8888 +9999 +99999\ndata\n" ).toList

/-- The info cached when constructing on `fileSent`. -/
def infoSent : ICARTTInfo := ⟨demoPath, 2, ( "1001" ).toList⟩

/-- Demo file with 14 header lines whose variable-count line (index 9)
holds -13. -/
def fileNegCount : Str :=
  ( "14,1001\na\nb\nc\nd\ne\nf\ng\nh\n-13\ni\nj\nX, u, d\nk\n" ).toList

/-- The info cached when constructing on `fileNegCount`. -/
def infoNegCount : ICARTTInfo := ⟨demoPath, 14, ( "1001" ).toList⟩

/-- Demo file with 14 header lines whose variable-count line (index 9)
holds -1. -/
def fileSmallCount : Str :=
  ( "14,1001\na\nb\nc\nd\ne\nf\ng\nh\n-1\ni\nj\nX, u, d\nk\n" ).toList

/-- The table extracted from `fileConv` with default arguments. -/
def tableConv : Table := (read_table fileConv infoConv none true).getD ⟨[], []⟩

/-- C1 counterexample: the first token of the first line parses to the
integer 0 < 1, yet construction succeeds and caches `header_length = 0`
instead of failing fast. -/
theorem c1_counterexample :
    pyInt? (( "0" ).toList) = some 0 ∧ (0 : Int) < 1 ∧
    read_info demoPath fileZero = some infoZero := by decide

/-- C1 (amended): construction performs no lower-bound validation — for
any first line splitting into at least two trimmed tokens whose first
parses as an integer `n` (even `n < 1`), construction succeeds and caches
`header_length = n`. -/
theorem c1_amended (path s t0 t1 : Str) (rest : List Str) (n : Int)
    (h : firstLineTokens s = t0 :: t1 :: rest) (hn : pyInt? t0 = some n) :
    read_info path s = some ⟨pyPathStr path, n, t1⟩ := by
  unfold read_info
  rw [h]
  simp [hn]

/-- C1 (amended) witness at `fileZero`. -/
theorem c1_amended_witness :
    read_info demoPath fileZero = some ⟨pyPathStr demoPath, 0, ( "1001" ).toList⟩ :=
  c1_amended demoPath fileZero (( "0" ).toList) (( "1001" ).toList) [] 0 (by decide) (by decide)

/-- C2 counterexample: the first line `-5,1001` yields two tokens whose
first parses only as the negative integer -5, i.e. not as a non-negative
integer, yet the extractor does not raise: construction succeeds with
`header_length = -5`. -/
theorem c2_counterexample :
    pyInt? (( "-5" ).toList) = some (-5) ∧ ((-5 : Int) < 0) ∧
    read_info demoPath fileNeg = some ⟨demoPath, -5, ( "1001" ).toList⟩ := by decide

/-- C2 (amended): the extractor raises if and only if the first line
splits into fewer than two trimmed tokens or the first token cannot parse
as an integer (Python `int`, signed); on success `header_length` is the
first token's integer value and `format_id` the second token. -/
theorem c2_amended (path s : Str) :
    (read_info path s = none ↔
      (firstLineTokens s).length < 2 ∨ pyInt? ((firstLineTokens s).headD []) = none) ∧
    (∀ info : ICARTTInfo, read_info path s = some info →
      pyInt? ((firstLineTokens s).headD []) = some info.header_length ∧
      info.ffi = ((firstLineTokens s)[1]?).getD [] ∧ info.path = pyPathStr path) := by
  constructor
  · simp only [read_info]
    by_cases hlen : (firstLineTokens s).length < 2
    · rw [if_pos hlen]
      simp [hlen]
    · rw [if_neg hlen]
      cases hp : pyInt? ((firstLineTokens s).headD []) with
      | none => simp [hlen]
      | some n => simp [hlen]
  · intro info h
    simp only [read_info] at h
    by_cases hlen : (firstLineTokens s).length < 2
    · rw [if_pos hlen] at h
      exact absurd h (by simp)
    · rw [if_neg hlen] at h
      cases hp : pyInt? ((firstLineTokens s).headD []) with
      | none =>
        rw [hp] at h
        exact absurd h (by simp)
      | some n =>
        rw [hp] at h
        simp only [Option.some.injEq] at h
        subst h
        exact ⟨rfl, rfl, rfl⟩

/-- C2 (amended) witness: a one-token first line is rejected. -/
theorem c2_amended_witness : read_info demoPath (( "x\n" ).toList) = none :=
  (c2_amended demoPath (( "x\n" ).toList)).1.mpr (by decide)

/-- C3: for a constructed reader with `header_length` N at least 1, the
header reader returns exactly `min(N, M)` lines (M the number of file
lines), each being the corresponding raw file line with trailing newline
characters stripped, with no error on short files. -/
theorem c3_header_lines (path s : Str) (info : ICARTTInfo)
    (_hinfo : read_info path s = some info) (_hpos : 1 ≤ info.header_length) :
    (read_header_lines s info).length = min info.header_length.toNat (fileLines s).length ∧
    ∀ i : Nat, i < info.header_length.toNat →
      (read_header_lines s info)[i]? = ((fileLines s)[i]?).map pyRstripNl := by
  constructor
  · simp [read_header_lines]
  · intro i hi
    simp only [read_header_lines, List.getElem?_map]
    rw [List.getElem?_take_of_lt hi]

/-- C3 witness at `fileConv` (N = 14, M = 16). -/
theorem c3_witness :
    (read_header_lines fileConv infoConv).length
        = min infoConv.header_length.toNat (fileLines fileConv).length ∧
    (read_header_lines fileConv infoConv)[0]? = ((fileLines fileConv)[0]?).map pyRstripNl := by
  have h := c3_header_lines demoPath fileConv infoConv (by decide) (by decide)
  exact ⟨h.1, h.2 0 (by decide)⟩

/-- C4: with line index 9 parsing to `count` at least 1 and header lines
available through index `12 + count - 1`, the extractor returns exactly
`count` entries, the j-th being the specified comma-split reading of
header line `12 + j`. -/
theorem c4_variable_defs (path s : Str) (info : ICARTTInfo) (count : Int)
    (_hinfo : read_info path s = some info)
    (hcount : pyInt? (pyStrip (((read_header_lines s info)[9]?).getD [])) = some count)
    (h1 : 1 ≤ count)
    (hlen : 12 + count.toNat ≤ (read_header_lines s info).length) :
    (read_variable_defs s info).length = count.toNat ∧
    ∀ j : Nat, j < count.toNat →
      (read_variable_defs s info)[j]? = ((read_header_lines s info)[12 + j]?).map varLineSpec := by
  have hblock : pySlice (read_header_lines s info) 12 (12 + count)
      = ((read_header_lines s info).drop 12).take count.toNat :=
    pySlice_block _ count (by omega) hlen
  have hout : read_variable_defs s info
      = (((read_header_lines s info).drop 12).take count.toNat).map varLineSpec := by
    simp only [read_variable_defs]
    rw [if_neg (by omega)]
    simp only [hcount]
    rw [hblock, filterMap_parseVarLine]
    simp [guess_per_variable_missing]
  constructor
  · rw [hout]
    simp only [List.length_map, List.length_take, List.length_drop]
    omega
  · intro j hj
    rw [hout]
    simp only [List.getElem?_map]
    rw [List.getElem?_take_of_lt hj, List.getElem?_drop]

/-- C4 witness at `fileConv` (count = 2; entries TEMP and PRES). -/
theorem c4_witness :
    (read_variable_defs fileConv infoConv).length = (2 : Int).toNat ∧
    (read_variable_defs fileConv infoConv)[0]?
      = ((read_header_lines fileConv infoConv)[12 + 0]?).map varLineSpec := by
  have h := c4_variable_defs demoPath fileConv infoConv 2 (by decide) (by decide) (by decide)
    (by decide)
  exact ⟨h.1, h.2 0 (by decide)⟩

/-- C5: the extractor returns the empty sequence (and never raises)
whenever fewer than 11 header lines exist or line index 9 does not parse
as an integer. -/
theorem c5_empty_defs (s : Str) (info : ICARTTInfo)
    (h : (read_header_lines s info).length < 11 ∨
      pyInt? (pyStrip (((read_header_lines s info)[9]?).getD [])) = none) :
    read_variable_defs s info = [] := by
  simp only [read_variable_defs]
  rcases h with h | h
  · rw [if_pos h]
  · by_cases hlen : (read_header_lines s info).length < 11
    · rw [if_pos hlen]
    · rw [if_neg hlen, h]

/-- C5 witness: a reader with an empty header list. -/
theorem c5_witness : read_variable_defs fileZero infoZero = [] :=
  c5_empty_defs fileZero infoZero (Or.inl (by decide))

/-- C6 counterexample: a header holding exactly the five fallback
sentinels as signed tokens has a nonempty candidate list, yet the
heuristic still returns the fixed fallback list — refuting the claimed
"only if". -/
theorem c6_counterexample :
    claimCandidates fileSent infoSent ≠ [] ∧
    guess_missing_values fileSent infoSent = fallbackMissing := by decide

/-- C6 (amended): the candidates are exactly the signed large-magnitude
digit tokens of the first at-most-200 header lines in order; the result
is the order-preserving deduplication of the candidates, or the fixed
fallback list if (but not only if) there is no candidate. -/
theorem c6_amended (s : Str) (info : ICARTTInfo) :
    guess_missing_values s info =
      (if claimCandidates s info = [] then fallbackMissing
       else dedupFirst (claimCandidates s info)) ∧
    (dedupFirst (claimCandidates s info)).Nodup ∧
    List.Sublist (dedupFirst (claimCandidates s info)) (claimCandidates s info) ∧
    (∀ v : Int, v ∈ dedupFirst (claimCandidates s info) ↔ v ∈ claimCandidates s info) := by
  refine ⟨?_, nodup_dedupSeen [] _, dedupSeen_sublist [] _, fun v => ?_⟩
  · simp only [guess_missing_values, missing_candidates_eq_claim]
    by_cases h : claimCandidates s info = []
    · rw [h]
      simp [dedupFirst, dedupSeen]
    · have hne : dedupFirst (claimCandidates s info) ≠ [] :=
        fun he => h ((dedupFirst_eq_nil_iff _).mp he)
      rw [if_neg h]
      simp only [List.isEmpty_iff]
      rw [if_neg hne]
  · rw [dedupFirst, mem_dedupSeen]
    simp

/-- C6 (amended) witness at `fileSent`. -/
theorem c6_amended_witness :
    guess_missing_values fileSent infoSent =
      (if claimCandidates fileSent infoSent = [] then fallbackMissing
       else dedupFirst (claimCandidates fileSent infoSent)) :=
  (c6_amended fileSent infoSent).1

/-- Lookup in the empty-value-filtered metadata dict finds a key exactly
when the unfiltered dict maps it to a nonempty value. -/
theorem lookupKey_filter_isSome_iff (k : Str) (l : List (Str × Str)) :
    (lookupKey k (l.filter (fun kv => !kv.2.isEmpty))).isSome ↔ ∃ v, (k, v) ∈ l ∧ v ≠ [] := by
  rw [lookupKey_isSome_iff]
  constructor
  · rintro ⟨v, hv⟩
    rw [List.mem_filter] at hv
    exact ⟨v, hv.1, by simpa using hv.2⟩
  · rintro ⟨v, hv1, hv2⟩
    exact ⟨v, List.mem_filter.mpr ⟨hv1, by simpa using hv2⟩⟩

/-- C7: metadata extraction is total (the model is a function), every
retained value is nonempty, `path` and `header_length` are always
present, and each optional key is present exactly when its trimmed source
value is nonempty. -/
theorem c7_metadata (path s : Str) (info : ICARTTInfo) :
    (∀ kv ∈ read_metadata path s info, kv.2 ≠ []) ∧
    (lookupKey keyPath (read_metadata path s info)).isSome ∧
    (lookupKey keyHeaderLength (read_metadata path s info)).isSome ∧
    ((lookupKey keyFfi (read_metadata path s info)).isSome ↔ info.ffi ≠ []) ∧
    ((lookupKey keyPi (read_metadata path s info)).isSome ↔
      safeLine (read_header_lines s info) 1 ≠ []) ∧
    ((lookupKey keyOrganization (read_metadata path s info)).isSome ↔
      safeLine (read_header_lines s info) 2 ≠ []) ∧
    ((lookupKey keyDataDescription (read_metadata path s info)).isSome ↔
      safeLine (read_header_lines s info) 3 ≠ []) ∧
    ((lookupKey keyMission (read_metadata path s info)).isSome ↔
      safeLine (read_header_lines s info) 4 ≠ []) ∧
    ((lookupKey keyVolumeInfo (read_metadata path s info)).isSome ↔
      safeLine (read_header_lines s info) 5 ≠ []) ∧
    ((lookupKey keyDateInfo (read_metadata path s info)).isSome ↔
      safeLine (read_header_lines s info) 6 ≠ []) ∧
    ((lookupKey keyDataInterval (read_metadata path s info)).isSome ↔
      safeLine (read_header_lines s info) 7 ≠ []) ∧
    ((lookupKey keyIndependentVariable (read_metadata path s info)).isSome ↔
      safeLine (read_header_lines s info) 8 ≠ []) := by
  refine ⟨?_, ?_, ?_, ?_, ?_, ?_, ?_, ?_, ?_, ?_, ?_, ?_⟩
  · intro kv hkv
    simp only [read_metadata, List.mem_filter] at hkv
    intro he
    rw [he] at hkv
    simp at hkv
  · simp only [read_metadata]
    rw [lookupKey_filter_isSome_iff]
    exact ⟨pyPathStr path, by simp, pyPathStr_ne_nil path⟩
  · simp only [read_metadata]
    rw [lookupKey_filter_isSome_iff]
    exact ⟨intRepr info.header_length, by simp, intRepr_ne_nil _⟩
  all_goals
    simp only [read_metadata]
    rw [lookupKey_filter_isSome_iff]
    constructor
    · rintro ⟨v, hv, hne⟩
      simp +decide [List.mem_cons, Prod.mk.injEq, keyPath, keyHeaderLength, keyFfi, keyPi,
        keyOrganization, keyDataDescription, keyMission, keyVolumeInfo, keyDateInfo,
        keyDataInterval, keyIndependentVariable] at hv
      exact hv ▸ hne
    · intro hne
      exact ⟨_, by simp, hne⟩

/-- C7 witness at `fileConv`: the `path` key is present. -/
theorem c7_witness : (lookupKey keyPath (read_metadata demoPath fileConv infoConv)).isSome :=
  (c7_metadata demoPath fileConv infoConv).2.1

/-- C8: any table extracted by `read_table`, exported to row-delimited
text and re-parsed by the CSV engine, reproduces the column names, the
number of rows and the number of cells. -/
theorem c8_roundtrip (s : Str) (info : ICARTTInfo) (naOpt : Option (List Int)) (b : Bool)
    (t : Table) (na2 : List Str) (h : read_table s info naOpt b = some t) :
    ∃ t2 : Table, reparseCsv (toCsvText t) na2 = some t2 ∧
      t2.colNames = t.colNames ∧ t2.rows.length = t.rows.length ∧
      cellCount t2 = cellCount t := by
  have hwf := read_table_wf h
  refine ⟨_, reparseCsv_toCsvText hwf na2, rfl, by simp, ?_⟩
  unfold cellCount
  simp only [List.map_map]
  refine congrArg List.sum ?_
  apply List.map_congr_left
  intro r hr
  simp

/-- C8 witness: the round trip on the table extracted from `fileConv`. -/
theorem c8_witness :
    ∃ t2 : Table, reparseCsv (toCsvText tableConv) [] = some t2 ∧
      t2.colNames = tableConv.colNames ∧ t2.rows.length = tableConv.rows.length ∧
      cellCount t2 = cellCount tableConv :=
  c8_roundtrip fileConv infoConv none true tableConv [] (by decide)

/-- C9: a reader constructed with a non-positive header length (which
construction permits) reads no header lines and computes a skip count of
0 for the table extractor. -/
theorem c9_nonpositive (path s : Str) (info : ICARTTInfo)
    (_hinfo : read_info path s = some info) (hnp : info.header_length ≤ 0) :
    read_header_lines s info = [] ∧ skiprowsOf info = 0 := by
  constructor
  · unfold read_header_lines
    have h0 : info.header_length.toNat = 0 := by omega
    rw [h0]
    simp
  · unfold skiprowsOf
    rw [Int.max_eq_right (by omega : info.header_length - 1 ≤ 0)]
    rfl

/-- C9 witness: the reader constructed on `fileZero`. -/
theorem c9_witness : read_header_lines fileZero infoZero = [] ∧ skiprowsOf infoZero = 0 :=
  c9_nonpositive demoPath fileZero infoZero (by decide) (by decide)

/-- C10 counterexample: 14 header lines with line index 9 parsing to the
negative count -13 — Python's negative slice bound wraps around and
`read_variable_defs` returns a nonempty list, refuting the claim. -/
theorem c10_counterexample :
    11 ≤ (read_header_lines fileNegCount infoNegCount).length ∧
    pyInt? (pyStrip (((read_header_lines fileNegCount infoNegCount)[9]?).getD []))
      = some (-13) ∧
    ((-13 : Int) ≤ 0) ∧
    read_variable_defs fileNegCount infoNegCount =
      [⟨( "X" ).toList, some (( "u" ).toList), some (( "d" ).toList), none⟩] := by decide

/-- C10 (amended): with at least 11 header lines and line index 9 parsing
to an integer n with n at most 0, the extractor returns the empty
sequence provided n is at least -12 or at most minus the number of header
lines (otherwise Python's negative slice bound makes the block
nonempty). -/
theorem c10_amended (s : Str) (info : ICARTTInfo) (n : Int)
    (hlen : 11 ≤ (read_header_lines s info).length)
    (hn : pyInt? (pyStrip (((read_header_lines s info)[9]?).getD [])) = some n)
    (hnp : n ≤ 0)
    (hrange : -12 ≤ n ∨ ((read_header_lines s info).length : Int) ≤ -n) :
    read_variable_defs s info = [] := by
  have hempty : pySlice (read_header_lines s info) 12 (12 + n) = [] := by
    apply pySlice_eq_nil
    rcases hrange with hr | hr <;>
      (unfold pySliceIdx; split_ifs <;> omega)
  simp only [read_variable_defs]
  rw [if_neg (by omega)]
  simp only [hn]
  rw [hempty]
  simp [guess_per_variable_missing]

/-- C10 (amended) witness: count -1 with 14 header lines yields the empty
sequence. -/
theorem c10_amended_witness : read_variable_defs fileSmallCount infoNegCount = [] :=
  c10_amended fileSmallCount infoNegCount (-1) (by decide) (by decide) (by decide)
    (Or.inl (by decide))

end Icartt

